import Mathlib

/-!
Shallow embedding of the agentic control loop of the temporal-gemini-agent
repository: the history codec `build_history_from_input` and the response
interpreter `parse_gemini_response` (src/gemini_agent/workflows/agent.py),
the tool dispatcher `invoke_tool` (src/gemini_agent/activities/tool_invoker.py),
and the agent loop of `AgentGeminiWorkflow.run` as a step relation.
-/

set_option maxHeartbeats 1000000

namespace GeminiAgent

/-- JSON-like values, standing for the Python values that appear in tool
argument mappings and tool outputs. -/
inductive Value where
  | str (s : String)
  | num (n : Int)
  | boolean (b : Bool)
  | null
  | arr (elems : List Value)
  | obj (fields : List (String × Value))

/-- A tool argument mapping: a Python dict from string keys to values. -/
abbrev Args := List (String × Value)

/-- One entry of the workflow `input_list`: a Python dict whose keys are
exactly those read by `build_history_from_input` and appended by
`AgentGeminiWorkflow.run` / `_handle_function_call`.  A key absent from the
dict is `none`. -/
structure Item where
  type : Option String := none
  role : Option String := none
  content : Option String := none
  name : Option String := none
  call_id : Option String := none
  arguments : Option Args := none
  output : Option Value := none

/-- The `function_call` payload of a provider part: `{"name": ..., "args": ...}`. -/
structure FunctionCallPayload where
  name : String
  args : Args

/-- The `function_response` payload of a provider part:
`{"name": ..., "response": ...}`. -/
structure FunctionResponsePayload where
  name : String
  response : Value

/-- A provider content part, as built by `build_history_from_input` and as
consumed by `parse_gemini_response`: a dict with at most one of the keys
`text`, `function_call`, `function_response`. -/
structure Part where
  text : Option String := none
  function_call : Option FunctionCallPayload := none
  function_response : Option FunctionResponsePayload := none

/-- A provider history entry: `{"role": ..., "parts": [...]}`. -/
structure HistoryEntry where
  role : String
  parts : List Part

/-- The body of the `for item in items_for_history` loop of
`build_history_from_input`: maps one input item to at most one provider
history entry.  `.error` models a Python `KeyError` on a required key
(`item["role"]`, `item["content"]`, `item["name"]`, `item["arguments"]`,
`item["call_id"]`, `item["output"]`); an item whose `type` tag is none of
the three recognized strings produces no entry. -/
def history_item_of (item : Item) : Except String (Option HistoryEntry) :=
  if item.type = some "message" then
    match item.role, item.content with
    | some r, some c => .ok (some ⟨r, [{ text := some c }]⟩)
    | _, _ => .error "KeyError"
  else if item.type = some "function_call" then
    match item.name, item.arguments with
    | some n, some a => .ok (some ⟨"model", [{ function_call := some ⟨n, a⟩ }]⟩)
    | _, _ => .error "KeyError"
  else if item.type = some "function_call_output" then
    match item.call_id, item.output with
    | some cid, some out =>
        .ok (some ⟨"user", [{ function_response := some ⟨cid, Value.obj [("result", out)]⟩ }]⟩)
    | _, _ => .error "KeyError"
  else
    .ok none

/-- The whole `for` loop of `build_history_from_input`: accumulates the
history entries of a list of items, stopping at the first `KeyError`. -/
def history_of : List Item → Except String (List HistoryEntry)
  | [] => .ok []
  | item :: rest =>
    match history_item_of item with
    | .error e => .error e
    | .ok none => history_of rest
    | .ok (some he) =>
      match history_of rest with
      | .error e => .error e
      | .ok tail => .ok (he :: tail)

/-- The fixed continuation instruction used as the prompt when the log ends
in a tool result. -/
def continuation_prompt : String :=
  "Please continue and provide your response based on the tool results."

/-- `build_history_from_input` of src/gemini_agent/workflows/agent.py.
`input_list[-1]` on an empty list raises `IndexError`, modelled by
`.error "IndexError"`. -/
def build_history_from_input (input_list : List Item) :
    Except String (List HistoryEntry × String) :=
  match input_list.getLast? with
  | none => .error "IndexError"
  | some last_item =>
    let is_continuing_after_tool := last_item.type = some "function_call_output"
    let items_for_history :=
      if is_continuing_after_tool then input_list else input_list.dropLast
    match history_of items_for_history with
    | .error e => .error e
    | .ok history =>
      let prompt :=
        if is_continuing_after_tool then continuation_prompt
        else last_item.content.getD ""
      .ok (history, prompt)

/-- The raw completion response consumed by `parse_gemini_response`:
a dict that may carry a `parts` key (`raw_response.get("parts", [])`). -/
structure RawResponse where
  parts : Option (List Part) := none

/-- One element of `GeminiResponse.output`: either the `FunctionCallOutput`
or the `MessageOutput` dataclass of workflows/agent.py, each carrying its
literal `type` tag field. -/
inductive OutputItem where
  | functionCall (type name call_id : String) (arguments : Args)
  | message (type content : String)

/-- `isinstance(item, FunctionCallOutput)`. -/
def OutputItem.isFunctionCallItem : OutputItem → Bool
  | .functionCall _ _ _ _ => true
  | .message _ _ => false

/-- The `GeminiResponse` dataclass: parsed output items plus the
concatenated text. -/
structure GeminiResponse where
  output : List OutputItem
  output_text : String

/-- One iteration of the `for part in parts` loop of `parse_gemini_response`,
acting on the accumulated `(output, output_text)` pair.  A part carrying a
`function_call` key appends a `FunctionCallOutput` whose `call_id` is the
tool name; otherwise a part carrying a `text` key extends `output_text`. -/
def parse_part_step (acc : List OutputItem × String) (part : Part) :
    List OutputItem × String :=
  match part.function_call with
  | some fc => (acc.1 ++ [.functionCall "function_call" fc.name fc.name fc.args], acc.2)
  | none =>
    match part.text with
    | some t => (acc.1, acc.2 ++ t)
    | none => acc

/-- `parse_gemini_response` of workflows/agent.py. -/
def parse_gemini_response (raw_response : RawResponse) : GeminiResponse :=
  let scanned := (raw_response.parts.getD []).foldl parse_part_step ([], "")
  let output :=
    if scanned.1.any OutputItem.isFunctionCallItem then scanned.1
    else scanned.1 ++ [.message "message" scanned.2]
  ⟨output, scanned.2⟩

/-- The interpreted outcome of a completion response, as acted on by
`AgentGeminiWorkflow.run`. -/
inductive Decision where
  | functionCall (name call_id : String) (arguments : Args)
  | finalAnswer (text : String)

/-- The decision `AgentGeminiWorkflow.run` extracts from a parsed response:
`item = result.output[0]` (`none` models the `IndexError` on an empty
output list), then either the tool call or, via `result.output_text`, the
final answer. -/
def run_decision (result : GeminiResponse) : Option Decision :=
  match result.output with
  | [] => none
  | item :: _ =>
    match item with
    | .functionCall _ n cid args => some (.functionCall n cid args)
    | .message _ _ => some (.finalAnswer result.output_text)

/-- The `ToolArguments` dataclass of activities/tool_invoker.py. -/
structure ToolArguments where
  tool_name : String
  args : Args

/-- An argument actually passed to a resolved handler: either a validated
and coerced schema object (`ann(**tool_args.args)` for a pydantic
`BaseModel` subclass annotation on the first parameter) or the raw
argument mapping passed through unchanged. -/
inductive CallArg where
  | model (v : Value)
  | raw (args : Args)

/-- A registered tool callable, as observed by `invoke_tool` through
`inspect.signature`: its declared parameter count, whether its first
declared parameter carries a `BaseModel` subclass as its type, the
validation/coercion that constructing that schema object performs
(`.error` models a pydantic validation failure), and the callable body
itself. -/
structure Handler where
  numParams : Nat
  firstParamIsBaseModel : Bool
  validate : Args → Except String Value
  run : List CallArg → Value

/-- A failure raised by `invoke_tool`: the explicit `ApplicationError`
(with its `type`, `message` and `non_retryable` fields) or a propagated
pydantic validation error. -/
inductive InvokeError where
  | applicationError (etype message : String) (non_retryable : Bool)
  | validationError (message : String)

/-- The outcome of one dispatch: the returned value or error, together with
the list of invocations of the resolved handler that took place (each with
the argument list it received).  The handler is called at exactly one site
in `invoke_tool`, so this list records whether and how it was invoked. -/
structure InvokeOutcome where
  result : Except InvokeError Value
  calls : List (List CallArg)

/-- `invoke_tool` of src/gemini_agent/activities/tool_invoker.py,
parameterized by the registry lookup `get_handler` (imported there from
`gemini_agent.tools`). -/
def invoke_tool (get_handler : String → Option Handler)
    (tool_args : ToolArguments) : InvokeOutcome :=
  match get_handler tool_args.tool_name with
  | none =>
    ⟨.error (.applicationError "ToolNotFoundError"
        ("Tool " ++ tool_args.tool_name ++ " was not found") true), []⟩
  | some handler =>
    if handler.numParams = 0 then
      ⟨.ok (handler.run []), [[]]⟩
    else if handler.firstParamIsBaseModel then
      match handler.validate tool_args.args with
      | .error e => ⟨.error (.validationError e), []⟩
      | .ok m => ⟨.ok (handler.run [.model m]), [[.model m]]⟩
    else
      ⟨.ok (handler.run [.raw tool_args.args]), [[.raw tool_args.args]]⟩

/-- One entry of the conversation log owned by `AgentGeminiWorkflow.run`.
The loop only ever appends the three dict shapes below (seed user message,
tool call, tool result); `modelMessage` is the model-role variant of a
`message` item, included for the codec. -/
inductive Turn where
  | userMessage (content : String)
  | modelMessage (content : String)
  | toolCall (name call_id : String) (arguments : Args)
  | toolResult (call_id : String) (output : Value)

/-- The dict that `AgentGeminiWorkflow.run` / `_handle_function_call`
builds for each kind of log entry. -/
def Turn.toItem : Turn → Item
  | .userMessage c => { type := some "message", role := some "user", content := some c }
  | .modelMessage c => { type := some "message", role := some "model", content := some c }
  | .toolCall n cid a =>
    { type := some "function_call", name := some n, call_id := some cid, arguments := some a }
  | .toolResult cid out =>
    { type := some "function_call_output", call_id := some cid, output := some out }

/-- The provider history entry that `build_history_from_input` produces for
each kind of log entry. -/
def Turn.toHistoryEntry : Turn → HistoryEntry
  | .userMessage c => ⟨"user", [{ text := some c }]⟩
  | .modelMessage c => ⟨"model", [{ text := some c }]⟩
  | .toolCall n _ a => ⟨"model", [{ function_call := some ⟨n, a⟩ }]⟩
  | .toolResult cid out =>
    ⟨"user", [{ function_response := some ⟨cid, Value.obj [("result", out)]⟩ }]⟩

/-- The control position of `AgentGeminiWorkflow.run`: about to consult the
completion service, suspended on a tool dispatch for a given call id, or
returned with the final answer. -/
inductive Phase where
  | awaitingCompletion
  | awaitingTool (call_id : String)
  | terminated (answer : String)

/-- A state of the agent loop: the conversation log plus the control
position. -/
structure LoopState where
  log : List Turn
  phase : Phase

/-- The step relation of the agent loop of `AgentGeminiWorkflow.run`.
A completion step consults the service (any raw response may come back),
parses it, and either appends the tool call decided on (entering the tool
dispatch) or terminates with the answer text; a tool step appends the tool
result for the pending call id (any output may come back) and loops. -/
inductive Step : LoopState → LoopState → Prop
  | toolCallStep (log : List Turn) (raw : RawResponse) (n cid : String) (a : Args)
      (h : run_decision (parse_gemini_response raw) = some (.functionCall n cid a)) :
      Step ⟨log, .awaitingCompletion⟩ ⟨log ++ [.toolCall n cid a], .awaitingTool cid⟩
  | finalAnswerStep (log : List Turn) (raw : RawResponse) (t : String)
      (h : run_decision (parse_gemini_response raw) = some (.finalAnswer t)) :
      Step ⟨log, .awaitingCompletion⟩ ⟨log, .terminated t⟩
  | toolResultStep (log : List Turn) (cid : String) (out : Value) :
      Step ⟨log, .awaitingTool cid⟩ ⟨log ++ [.toolResult cid out], .awaitingCompletion⟩

/-- The initial state of `AgentGeminiWorkflow.run`: the log seeded with the
single user message holding the caller's input, about to consult the model. -/
def initState (input : String) : LoopState :=
  ⟨[.userMessage input], .awaitingCompletion⟩

/-- A state of the agent loop reachable from the initial state. -/
def Reachable (input : String) (s : LoopState) : Prop :=
  Relation.ReflTransGen Step (initState input) s

/-! ### Helper lemmas about the history codec -/

lemma history_item_of_toItem (t : Turn) :
    history_item_of t.toItem = .ok (some t.toHistoryEntry) := by
  cases t <;> rfl

lemma history_of_map_toItem (log : List Turn) :
    history_of (log.map Turn.toItem) = .ok (log.map Turn.toHistoryEntry) := by
  induction log with
  | nil => rfl
  | cons t ts ih =>
    simp only [List.map_cons, history_of, history_item_of_toItem, ih]

lemma build_history_map_eq (log : List Turn) (t : Turn) (ht : log.getLast? = some t) :
    build_history_from_input (log.map Turn.toItem) =
      if t.toItem.type = some "function_call_output"
      then .ok (log.map Turn.toHistoryEntry, continuation_prompt)
      else .ok (log.dropLast.map Turn.toHistoryEntry, t.toItem.content.getD "") := by
  have h1 : (log.map Turn.toItem).getLast? = some t.toItem := by
    rw [List.getLast?_map, ht]; rfl
  unfold build_history_from_input
  rw [h1]
  by_cases hc : t.toItem.type = some "function_call_output"
  · simp only [hc, if_true, if_pos, history_of_map_toItem]
  · simp only [hc, if_false, if_neg, ← List.map_dropLast, history_of_map_toItem]

lemma step_log_append {s s' : LoopState} (h : Step s s') :
    ∃ tail, s'.log = s.log ++ tail := by
  cases h with
  | toolCallStep log raw n cid a hd => exact ⟨[.toolCall n cid a], rfl⟩
  | finalAnswerStep log raw t hd => exact ⟨[], (List.append_nil _).symm⟩
  | toolResultStep log cid out => exact ⟨[.toolResult cid out], rfl⟩

lemma reachable_log_head {input : String} {s : LoopState} (h : Reachable input s) :
    ∃ tail, s.log = Turn.userMessage input :: tail := by
  induction h with
  | refl => exact ⟨[], rfl⟩
  | tail _ hstep ih =>
    obtain ⟨t1, h1⟩ := ih
    obtain ⟨t2, h2⟩ := step_log_append hstep
    exact ⟨t1 ++ t2, by rw [h2, h1]; simp⟩

/-! ### Claims about the history codec -/

/-- C2: for every non-empty conversation log whose last entry is a
ToolResult (type `function_call_output`), `build_history_from_input` maps
every entry of the log, including that last ToolResult, into provider
history, and sets the prompt to the fixed continuation string. -/
theorem encode_continuation_framing (log : List Turn) (cid : String) (out : Value)
    (hlast : log.getLast? = some (.toolResult cid out)) :
    build_history_from_input (log.map Turn.toItem) =
      .ok (log.map Turn.toHistoryEntry, continuation_prompt) := by
  have hc : (Turn.toolResult cid out).toItem.type = some "function_call_output" := rfl
  rw [build_history_map_eq log _ hlast, if_pos hc]

/-- Witness for C2 at a concrete three-entry log ending in a tool result. -/
theorem encode_continuation_framing_witness :
    build_history_from_input
        ([Turn.userMessage "What is my IP?", Turn.toolCall "get_ip" "get_ip" [],
          Turn.toolResult "get_ip" (Value.str "19.199.198.200")].map Turn.toItem) =
      .ok ([Turn.userMessage "What is my IP?", Turn.toolCall "get_ip" "get_ip" [],
          Turn.toolResult "get_ip" (Value.str "19.199.198.200")].map Turn.toHistoryEntry,
        continuation_prompt) :=
  encode_continuation_framing _ "get_ip" (Value.str "19.199.198.200") rfl

/-- C3: for every non-empty conversation log whose last entry is a
UserMessage with content `c`, `build_history_from_input` excludes that last
entry from provider history and uses `c` as the prompt. -/
theorem encode_fresh_input_framing (log : List Turn) (c : String)
    (hlast : log.getLast? = some (.userMessage c)) :
    build_history_from_input (log.map Turn.toItem) =
      .ok (log.dropLast.map Turn.toHistoryEntry, c) := by
  have hc : ¬ ((Turn.userMessage c).toItem.type = some "function_call_output") := by
    simp [Turn.toItem]
  rw [build_history_map_eq log _ hlast, if_neg hc]
  rfl

/-- Witness for C3 at a concrete one-entry log holding a fresh user message. -/
theorem encode_fresh_input_framing_witness :
    build_history_from_input ([Turn.userMessage "Tell me about recursion"].map Turn.toItem) =
      .ok ([], "Tell me about recursion") :=
  encode_fresh_input_framing [Turn.userMessage "Tell me about recursion"]
    "Tell me about recursion" rfl

/-- C9: `build_history_from_input` fails by indexing the last element on
the empty list, succeeds on every non-empty log of well-formed turns, and
the agent loop always keeps the log non-empty (it is seeded with one
UserMessage). -/
theorem encode_requires_nonempty_log :
    build_history_from_input [] = .error "IndexError" ∧
    (∀ log : List Turn, log ≠ [] →
      ∃ history prompt,
        build_history_from_input (log.map Turn.toItem) = .ok (history, prompt)) ∧
    (∀ input s, Reachable input s → s.log ≠ []) := by
  refine ⟨rfl, ?_, ?_⟩
  · intro log hne
    obtain ⟨t, ht⟩ := Option.ne_none_iff_exists'.mp
      (mt List.getLast?_eq_none_iff.mp hne)
    rw [build_history_map_eq log t ht]
    by_cases hc : t.toItem.type = some "function_call_output"
    · rw [if_pos hc]; exact ⟨_, _, rfl⟩
    · rw [if_neg hc]; exact ⟨_, _, rfl⟩
  · intro input s hreach
    obtain ⟨tail, htail⟩ := reachable_log_head hreach
    simp [htail]

/-- Witness for C9 at a concrete non-empty log and a concrete reachable
state. -/
theorem encode_requires_nonempty_log_witness :
    (∃ history prompt,
      build_history_from_input ([Turn.userMessage "hi"].map Turn.toItem) =
        .ok (history, prompt)) ∧
    (initState "hi").log ≠ [] :=
  ⟨encode_requires_nonempty_log.2.1 [Turn.userMessage "hi"] (List.cons_ne_nil _ _),
   encode_requires_nonempty_log.2.2 "hi" (initState "hi") Relation.ReflTransGen.refl⟩

/-- C10: an input item whose `type` tag is none of `message`,
`function_call`, `function_call_output` produces no provider history entry
and no error: the history of a list containing it equals the history of
the list without it. -/
theorem encode_drops_unrecognized_entries (item : Item) (pre post : List Item)
    (h1 : item.type ≠ some "message") (h2 : item.type ≠ some "function_call")
    (h3 : item.type ≠ some "function_call_output") :
    history_item_of item = .ok none ∧
    history_of (pre ++ item :: post) = history_of (pre ++ post) := by
  have hitem : history_item_of item = .ok none := by
    unfold history_item_of
    rw [if_neg h1, if_neg h2, if_neg h3]
  refine ⟨hitem, ?_⟩
  induction pre with
  | nil => simp only [List.nil_append, history_of, hitem]
  | cons p ps ih =>
    simp only [List.cons_append, history_of, List.append_eq, ih]

/-- Witness for C10 at a concrete unrecognized item. -/
theorem encode_drops_unrecognized_entries_witness :
    history_item_of { type := some "reasoning" } = .ok none ∧
    history_of [{ type := some "reasoning" }] = history_of [] :=
  encode_drops_unrecognized_entries { type := some "reasoning" } [] []
    (by decide) (by decide) (by decide)

/-! ### Helper lemmas about the response interpreter -/

/-- The output item `parse_gemini_response` builds from a `function_call`
part payload. -/
def fcOutputItem (fc : FunctionCallPayload) : OutputItem :=
  .functionCall "function_call" fc.name fc.name fc.args

lemma parse_foldl_fst (parts : List Part) (acc : List OutputItem × String) :
    (parts.foldl parse_part_step acc).1 =
      acc.1 ++ parts.filterMap (fun p => p.function_call.map fcOutputItem) := by
  induction parts generalizing acc with
  | nil => simp
  | cons p ps ih =>
    rw [List.foldl_cons, ih, List.filterMap_cons]
    cases hfc : p.function_call with
    | some fc => simp [parse_part_step, hfc, fcOutputItem]
    | none =>
      cases htx : p.text with
      | some t => simp [parse_part_step, hfc, htx]
      | none => simp [parse_part_step, hfc, htx]

lemma filterMap_head?_eq_findSome? {α β : Type} (f : α → Option β) (l : List α) :
    (l.filterMap f).head? = l.findSome? f := by
  induction l with
  | nil => rfl
  | cons x xs ih =>
    cases h : f x <;> simp [List.filterMap_cons, List.findSome?_cons, h, ih]

lemma findSome?_map_inner {α β γ : Type} (f : α → Option β) (g : β → γ) (l : List α) :
    l.findSome? (fun a => (f a).map g) = (l.findSome? f).map g := by
  induction l with
  | nil => rfl
  | cons x xs ih =>
    cases h : f x <;> simp [List.findSome?_cons, h, ih]

/-! ### Claims about the response interpreter -/

/-- Counterexample to C1: on the completion response with no content parts
at all, interpretation does not fail; `parse_gemini_response` produces a
message output with empty content and `AgentGeminiWorkflow.run` turns it
into a final answer with empty text. -/
theorem empty_response_yields_empty_final_answer :
    run_decision (parse_gemini_response ⟨some []⟩) =
      some (.finalAnswer "") := rfl

/-- C1 (amended): for every completion response with no content parts,
interpretation succeeds and yields a FinalAnswer with empty text; no
distinguishable error is signaled. -/
theorem no_parts_response_yields_empty_final_answer (raw : RawResponse)
    (h : raw.parts.getD [] = []) :
    run_decision (parse_gemini_response raw) = some (.finalAnswer "") := by
  unfold parse_gemini_response
  rw [h]
  rfl

/-- Witness for amended C1 at the response carrying no `parts` key. -/
theorem no_parts_response_yields_empty_final_answer_witness :
    run_decision (parse_gemini_response ⟨none⟩) = some (.finalAnswer "") :=
  no_parts_response_yields_empty_final_answer ⟨none⟩ rfl

/-- C4: for every completion response containing at least one
function-call part, interpretation yields the FunctionCall decision built
from the first function-call part in part order, with `call_id` equal to
that part's tool name; it never yields FinalAnswer, even when text parts
are also present. -/
theorem interpreter_function_call_precedence (raw : RawResponse)
    (fc : FunctionCallPayload)
    (h : (raw.parts.getD []).findSome? (fun p => p.function_call) = some fc) :
    run_decision (parse_gemini_response raw) =
      some (.functionCall fc.name fc.name fc.args) := by
  have hfst : ((raw.parts.getD []).foldl parse_part_step ([], "")).1 =
      (raw.parts.getD []).filterMap (fun p => p.function_call.map fcOutputItem) := by
    rw [parse_foldl_fst]; rfl
  have hhead : ((raw.parts.getD []).filterMap
      (fun p => p.function_call.map fcOutputItem)).head? = some (fcOutputItem fc) := by
    rw [filterMap_head?_eq_findSome?, findSome?_map_inner, h]; rfl
  obtain ⟨rest, hrest⟩ : ∃ rest,
      (raw.parts.getD []).filterMap (fun p => p.function_call.map fcOutputItem) =
        fcOutputItem fc :: rest := by
    cases hl : (raw.parts.getD []).filterMap (fun p => p.function_call.map fcOutputItem) with
    | nil => rw [hl] at hhead; exact absurd hhead (by simp)
    | cons x xs =>
      rw [hl] at hhead
      exact ⟨xs, by rw [List.head?_cons] at hhead; rw [Option.some_inj.mp hhead]⟩
  simp only [parse_gemini_response]
  rw [hfst, hrest]
  have hany : (fcOutputItem fc :: rest).any OutputItem.isFunctionCallItem = true := by
    simp [fcOutputItem, OutputItem.isFunctionCallItem]
  rw [if_pos hany]
  rfl

/-- Witness for C4 at a concrete response holding a text part followed by a
function-call part. -/
theorem interpreter_function_call_precedence_witness :
    run_decision (parse_gemini_response
        ⟨some [{ text := some "Let me check." },
               { function_call := some ⟨"get_ip", [("verbose", Value.boolean true)]⟩ }]⟩) =
      some (.functionCall "get_ip" "get_ip" [("verbose", Value.boolean true)]) :=
  interpreter_function_call_precedence _ ⟨"get_ip", [("verbose", Value.boolean true)]⟩ rfl

/-- C7: encoding a ToolCall log entry into a provider history entry and
then interpreting a response built from that entry's parts yields a
FunctionCall decision with the same name and the same arguments. -/
theorem function_call_round_trip (n cid : String) (a : Args) (out : Value) :
    ∃ entry rest prompt,
      build_history_from_input
          ([Turn.toolCall n cid a, Turn.toolResult cid out].map Turn.toItem) =
        .ok (entry :: rest, prompt) ∧
      run_decision (parse_gemini_response ⟨some entry.parts⟩) =
        some (.functionCall n n a) := by
  refine ⟨(Turn.toolCall n cid a).toHistoryEntry,
    [(Turn.toolResult cid out).toHistoryEntry], continuation_prompt, ?_, ?_⟩
  · have hc : (Turn.toolResult cid out).toItem.type = some "function_call_output" := rfl
    rw [build_history_map_eq [Turn.toolCall n cid a, Turn.toolResult cid out]
      (Turn.toolResult cid out) rfl, if_pos hc]
    rfl
  · rfl

/-! ### Claims about the tool dispatcher -/

/-- C5: for every dispatch whose tool name does not resolve in the
registry, `invoke_tool` fails with the non-retryable ToolNotFound
application error and no registered callable is invoked (the invocation
trace is empty). -/
theorem dispatch_unknown_tool_not_found (get_handler : String → Option Handler)
    (tool_args : ToolArguments) (h : get_handler tool_args.tool_name = none) :
    invoke_tool get_handler tool_args =
      ⟨.error (.applicationError "ToolNotFoundError"
          ("Tool " ++ tool_args.tool_name ++ " was not found") true), []⟩ := by
  unfold invoke_tool
  rw [h]

/-- Witness for C5 at the empty registry. -/
theorem dispatch_unknown_tool_not_found_witness :
    invoke_tool (fun _ => none) ⟨"get_ip", []⟩ =
      ⟨.error (.applicationError "ToolNotFoundError"
          ("Tool " ++ "get_ip" ++ " was not found") true), []⟩ :=
  dispatch_unknown_tool_not_found (fun _ => none) ⟨"get_ip", []⟩ rfl

/-- C6: for every dispatch to a resolved callable: with zero declared
parameters it is invoked once with no arguments; with a single parameter
carrying a schema (BaseModel) type, the raw argument mapping is validated
and coerced before the single invocation (and on validation failure no
invocation happens); otherwise the raw argument mapping is passed through
unchanged as the single argument. -/
theorem dispatch_argument_adaptation (get_handler : String → Option Handler)
    (tool_args : ToolArguments) (handler : Handler)
    (h : get_handler tool_args.tool_name = some handler) :
    (handler.numParams = 0 →
      invoke_tool get_handler tool_args = ⟨.ok (handler.run []), [[]]⟩) ∧
    (handler.numParams = 1 → handler.firstParamIsBaseModel = true →
      (∀ m, handler.validate tool_args.args = .ok m →
        invoke_tool get_handler tool_args =
          ⟨.ok (handler.run [.model m]), [[CallArg.model m]]⟩) ∧
      (∀ e, handler.validate tool_args.args = .error e →
        invoke_tool get_handler tool_args = ⟨.error (.validationError e), []⟩)) ∧
    (handler.numParams = 1 → handler.firstParamIsBaseModel = false →
      invoke_tool get_handler tool_args =
        ⟨.ok (handler.run [.raw tool_args.args]), [[CallArg.raw tool_args.args]]⟩) := by
  simp only [invoke_tool, h]
  refine ⟨?_, ?_, ?_⟩
  · intro h0
    rw [if_pos h0]
  · intro h1 hbm
    have hne : ¬ handler.numParams = 0 := by omega
    constructor
    · intro m hm
      rw [if_neg hne, if_pos hbm, hm]
    · intro e he
      rw [if_neg hne, if_pos hbm, he]
  · intro h1 hbm
    have hne : ¬ handler.numParams = 0 := by omega
    have hbm' : ¬ handler.firstParamIsBaseModel = true := by simp [hbm]
    rw [if_neg hne, if_neg hbm']

/-- Witness for C6 at a concrete registry with a single-parameter,
non-schema handler. -/
theorem dispatch_argument_adaptation_witness :
    invoke_tool
        (fun _ => some ⟨1, false, fun _ => .ok Value.null, fun _ => Value.null⟩)
        ⟨"echo", [("x", Value.num 1)]⟩ =
      ⟨.ok Value.null, [[CallArg.raw [("x", Value.num 1)]]]⟩ :=
  (dispatch_argument_adaptation
      (fun _ => some ⟨1, false, fun _ => .ok Value.null, fun _ => Value.null⟩)
      ⟨"echo", [("x", Value.num 1)]⟩
      ⟨1, false, fun _ => .ok Value.null, fun _ => Value.null⟩ rfl).2.2 rfl rfl

/-! ### The agent loop invariant -/

/-- The log pairing invariant of the agent loop: every ToolCall entry is
immediately followed by a ToolResult with the same call id, except for a
ToolCall at the very end while its dispatch is pending; every ToolResult
is immediately preceded by the ToolCall with the same call id; and while a
dispatch is pending, the pending ToolCall is the last entry. -/
def Inv (s : LoopState) : Prop :=
  (∀ i n cid a, s.log[i]? = some (.toolCall n cid a) →
     (∃ out, s.log[i + 1]? = some (.toolResult cid out)) ∨
     (i + 1 = s.log.length ∧ s.phase = .awaitingTool cid)) ∧
  (∀ i cid out, s.log[i]? = some (.toolResult cid out) →
     ∃ j n a, i = j + 1 ∧ s.log[j]? = some (.toolCall n cid a)) ∧
  (∀ cid, s.phase = .awaitingTool cid →
     ∃ n a, s.log.getLast? = some (.toolCall n cid a))

lemma getElem?_some_lt {α : Type} {l : List α} {i : Nat} {x : α}
    (h : l[i]? = some x) : i < l.length := by
  by_contra hlt
  rw [List.getElem?_eq_none (Nat.le_of_not_lt hlt)] at h
  exact Option.noConfusion h

lemma concat_getElem?_lt {α : Type} {l : List α} (t : α) {i : Nat}
    (h : i < l.length) : (l ++ [t])[i]? = l[i]? := by
  rw [List.getElem?_append, if_pos h]

lemma concat_getElem?_gt {α : Type} {l : List α} (t : α) {i : Nat}
    (h : l.length < i) : (l ++ [t])[i]? = none := by
  rw [List.getElem?_append, if_neg (by omega)]
  apply List.getElem?_eq_none
  simp only [List.length_singleton]
  omega

lemma inv_init (input : String) : Inv (initState input) := by
  refine ⟨?_, ?_, ?_⟩
  · intro i n cid a hi
    cases i <;> simp [initState] at hi
  · intro i cid out hi
    cases i <;> simp [initState] at hi
  · intro cid h
    simp [initState] at h

lemma inv_step {s s' : LoopState} (hstep : Step s s') (hinv : Inv s) : Inv s' := by
  obtain ⟨h1, h2, h3⟩ := hinv
  cases hstep with
  | toolCallStep log raw n cid a hd =>
    have h1' : ∀ i n' cid' a', log[i]? = some (.toolCall n' cid' a') →
        (∃ out, log[i + 1]? = some (.toolResult cid' out)) ∨
        (i + 1 = log.length ∧ Phase.awaitingCompletion = Phase.awaitingTool cid') := h1
    have h2' : ∀ i cid' out, log[i]? = some (.toolResult cid' out) →
        ∃ j n' a', i = j + 1 ∧ log[j]? = some (.toolCall n' cid' a') := h2
    refine ⟨?_, ?_, ?_⟩
    · intro i n' cid' a' hi
      rcases Nat.lt_trichotomy i log.length with hlt | heq | hgt
      · rw [concat_getElem?_lt _ hlt] at hi
        rcases h1' i n' cid' a' hi with ⟨out, hout⟩ | ⟨_, hp⟩
        · exact Or.inl ⟨out, by rw [concat_getElem?_lt _ (getElem?_some_lt hout)]; exact hout⟩
        · exact absurd hp (by simp)
      · subst heq
        rw [List.getElem?_concat_length] at hi
        simp only [Option.some_inj, Turn.toolCall.injEq] at hi
        obtain ⟨rfl, rfl, rfl⟩ := hi
        exact Or.inr ⟨by simp, rfl⟩
      · rw [concat_getElem?_gt _ hgt] at hi
        exact Option.noConfusion hi
    · intro i cid' out hi
      rcases Nat.lt_trichotomy i log.length with hlt | heq | hgt
      · rw [concat_getElem?_lt _ hlt] at hi
        obtain ⟨j, n1, a1, hij, hj⟩ := h2' i cid' out hi
        exact ⟨j, n1, a1, hij, by rw [concat_getElem?_lt _ (getElem?_some_lt hj)]; exact hj⟩
      · subst heq
        rw [List.getElem?_concat_length] at hi
        exact absurd hi (by simp)
      · rw [concat_getElem?_gt _ hgt] at hi
        exact Option.noConfusion hi
    · intro cid' hph
      simp only [Phase.awaitingTool.injEq] at hph
      subst hph
      exact ⟨n, a, by rw [List.getLast?_concat]⟩
  | finalAnswerStep log raw t hd =>
    have h1' : ∀ i n' cid' a', log[i]? = some (.toolCall n' cid' a') →
        (∃ out, log[i + 1]? = some (.toolResult cid' out)) ∨
        (i + 1 = log.length ∧ Phase.awaitingCompletion = Phase.awaitingTool cid') := h1
    refine ⟨?_, h2, ?_⟩
    · intro i n' cid' a' hi
      rcases h1' i n' cid' a' hi with ⟨out, hout⟩ | ⟨_, hp⟩
      · exact Or.inl ⟨out, hout⟩
      · exact absurd hp (by simp)
    · intro cid' hph
      exact absurd hph (by simp)
  | toolResultStep log cid out =>
    have h1' : ∀ i n' cid' a', log[i]? = some (.toolCall n' cid' a') →
        (∃ o, log[i + 1]? = some (.toolResult cid' o)) ∨
        (i + 1 = log.length ∧ Phase.awaitingTool cid = Phase.awaitingTool cid') := h1
    have h2' : ∀ i cid' o, log[i]? = some (.toolResult cid' o) →
        ∃ j n' a', i = j + 1 ∧ log[j]? = some (.toolCall n' cid' a') := h2
    have h3' : ∀ cid', Phase.awaitingTool cid = Phase.awaitingTool cid' →
        ∃ n' a', log.getLast? = some (.toolCall n' cid' a') := h3
    obtain ⟨n0, a0, hlast⟩ := h3' cid rfl
    have hlast' : log[log.length - 1]? = some (.toolCall n0 cid a0) := by
      rw [← List.getLast?_eq_getElem?]; exact hlast
    have hlen1 : 1 ≤ log.length := by
      have := getElem?_some_lt hlast'
      omega
    refine ⟨?_, ?_, ?_⟩
    · intro i n' cid' a' hi
      rcases Nat.lt_trichotomy i log.length with hlt | heq | hgt
      · rw [concat_getElem?_lt _ hlt] at hi
        rcases h1' i n' cid' a' hi with ⟨o, ho⟩ | ⟨hl, hp⟩
        · exact Or.inl ⟨o, by rw [concat_getElem?_lt _ (getElem?_some_lt ho)]; exact ho⟩
        · simp only [Phase.awaitingTool.injEq] at hp
          subst hp
          refine Or.inl ⟨out, ?_⟩
          rw [hl, List.getElem?_concat_length]
      · subst heq
        rw [List.getElem?_concat_length] at hi
        exact absurd hi (by simp)
      · rw [concat_getElem?_gt _ hgt] at hi
        exact Option.noConfusion hi
    · intro i cid' o hi
      rcases Nat.lt_trichotomy i log.length with hlt | heq | hgt
      · rw [concat_getElem?_lt _ hlt] at hi
        obtain ⟨j, n1, a1, hij, hj⟩ := h2' i cid' o hi
        exact ⟨j, n1, a1, hij, by rw [concat_getElem?_lt _ (getElem?_some_lt hj)]; exact hj⟩
      · subst heq
        rw [List.getElem?_concat_length] at hi
        simp only [Option.some_inj, Turn.toolResult.injEq] at hi
        obtain ⟨rfl, rfl⟩ := hi
        refine ⟨log.length - 1, n0, a0, by omega, ?_⟩
        rw [concat_getElem?_lt _ (by omega)]
        exact hlast'
      · rw [concat_getElem?_gt _ hgt] at hi
        exact Option.noConfusion hi
    · intro cid' hph
      exact absurd hph (by simp)

lemma reachable_inv {input : String} {s : LoopState} (h : Reachable input s) : Inv s := by
  induction h with
  | refl => exact inv_init input
  | tail _ hstep ih => exact inv_step hstep ih

/-! ### Claim about the agent loop -/

/-- C8: along every step of the agent loop the conversation log only grows
by appending at the end (no entry is mutated or removed), and in every
reachable state the pairing invariant `Inv` holds: each ToolCall is
immediately followed by exactly one ToolResult with the same call id
(pending only while its dispatch is in flight), and each ToolResult
immediately follows its ToolCall. -/
theorem agent_loop_append_only_and_tool_pairing :
    (∀ s s', Step s s' → ∃ tail, s'.log = s.log ++ tail) ∧
    (∀ input s, Reachable input s → Inv s) :=
  ⟨fun _ _ h => step_log_append h, fun _ _ h => reachable_inv h⟩

/-- Witness for C8 at the initial state of a concrete run. -/
theorem agent_loop_append_only_and_tool_pairing_witness :
    Inv (initState "What is my IP?") :=
  agent_loop_append_only_and_tool_pairing.2 "What is my IP?" _
    Relation.ReflTransGen.refl

end GeminiAgent
